import Mathlib

/-!
Verification of the libosmium area assembler (`osmium/area/assembler.hpp`) and the
mmap-backed index (`osmium/index/map/mmap_file.hpp`) against their specification.

The assembler code is embedded shallowly: the C++ member functions become pure Lean
functions over explicit state.  Supporting types that the assembler uses but whose
headers are not part of the two source files (NodeRef, Location, NodeRefSegment,
ProtoRing, Problem) are modelled from the specification document; each such
definition carries a doc comment starting with "Modelled from the spec:".
-/

/-- Fixed-point OSM location: integer x and y coordinates (spec section 3). -/
structure Location where
  x : Int
  y : Int
deriving DecidableEq, Repr

/-- Modelled from the spec: the sentinel coordinate of an unset location
(`osmium::Location` uses 2^31 - 1 for undefined coordinates). -/
def undefinedCoordinate : Int := 2147483647

/-- Modelled from the spec: the unset ("empty") location sentinel. -/
def Location.undefined : Location := ⟨undefinedCoordinate, undefinedCoordinate⟩

/-- Modelled from the spec: a location is valid (`operator bool`) iff it is not the
undefined sentinel. -/
def Location.validB (l : Location) : Bool := decide (l ≠ Location.undefined)

/-- Modelled from the spec: strict lexicographic order on locations, x then y. -/
def locLexLtB (p q : Location) : Bool := p.x < q.x || (p.x == q.x && p.y < q.y)

/-- Modelled from the spec: a NodeRef is a stable integer identity plus a location;
a default-constructed NodeRef has identity 0 and the unset location. -/
structure NodeRef where
  ref : Int
  location : Location
deriving DecidableEq, Repr

instance : Inhabited NodeRef := ⟨⟨0, Location.undefined⟩⟩

/-- Modelled from the spec: two NodeRefs are equal iff their identities are equal
(`NodeRef::operator==` compares refs, not locations). -/
def nrEqB (a b : NodeRef) : Bool := a.ref == b.ref

/-- Modelled from the spec: an undirected segment between two NodeRefs in canonical
orientation, carrying a weak ring back-reference, a winding flag and a weak
left-segment back-reference.  Ring and segment pointers are modelled as a ring id
and a segment index respectively. -/
structure NodeRefSegment where
  first : NodeRef
  second : NodeRef
  ring : Option Nat
  cw : Bool
  left_segment : Option Nat
deriving DecidableEq, Repr

instance : Inhabited NodeRefSegment := ⟨⟨default, default, none, false, none⟩⟩

/-- Modelled from the spec: the `NodeRefSegment(a, b)` constructor swaps the endpoints
if the second is lexicographically smaller than the first on (x, y); fresh segments
carry no back-references. -/
def NodeRefSegment.make (a b : NodeRef) : NodeRefSegment :=
  if locLexLtB b.location a.location then ⟨b, a, none, false, none⟩
  else ⟨a, b, none, false, none⟩

/-- Modelled from the spec: segment equality ignores the back-references and compares
the canonical endpoint pair; per the source comment "duplicate segments (ie same
start and end point)" endpoints are compared by location. -/
def segEqB (s t : NodeRefSegment) : Bool :=
  s.first.location == t.first.location && s.second.location == t.second.location

/-- Modelled from the spec: the segment sort order is lexicographic by
(first.x, first.y, second.x, second.y) of the canonical endpoints. -/
def segLtB (s t : NodeRefSegment) : Bool :=
  locLexLtB s.first.location t.first.location ||
    (s.first.location == t.first.location &&
      locLexLtB s.second.location t.second.location)

/-- Non-strict companion of `segLtB` (the relation that holds between consecutive
elements of a vector sorted with `std::sort` and `operator<`). -/
def segLeB (s t : NodeRefSegment) : Bool := !segLtB t s

/-- Single step of insertion sort with the assembler's comparator. -/
def insertSorted (x : NodeRefSegment) : List NodeRefSegment → List NodeRefSegment
  | [] => [x]
  | y :: ys => if segLeB x y then x :: y :: ys else y :: insertSorted x ys

/-- Sorting pass of the assembler (`std::sort` over `operator<`), realized as an
insertion sort with the same comparator. -/
def sortSegments (l : List NodeRefSegment) : List NodeRefSegment :=
  l.foldr insertSorted []

/-- Modelled from the spec: a way is an ordered list of NodeRefs. -/
abbrev Way := List NodeRef

/-- Inner node walk of `Assembler::extract_segments_from_ways`: `last` plays the role
of the running `last_nr` variable. -/
def extractWayGo (last : NodeRef) : List NodeRef → List NodeRefSegment
  | [] => []
  | nr :: rest =>
    (if last.location.validB && !nrEqB last nr then [NodeRefSegment.make last nr]
     else []) ++ extractWayGo nr rest

/-- Embedding of `Assembler::extract_segments_from_ways`: the input buffer is a list
of ways addressed by index, and the member list supplies the iteration order. -/
def extract_segments_from_ways (members : List Nat) (in_buffer : List Way) :
    List NodeRefSegment :=
  members.flatMap (fun offset => extractWayGo default (in_buffer.getD offset []))

/-- Specification-side description of segment extraction (claim C8): for each member
way, one segment per consecutive node pair whose first NodeRef has a valid location
and whose NodeRefs differ in identity. -/
def extractSpec (members : List Nat) (in_buffer : List Way) : List NodeRefSegment :=
  members.flatMap (fun offset =>
    let w := in_buffer.getD offset []
    (w.zip w.tail).filterMap (fun p =>
      if p.1.location.validB && !nrEqB p.1 p.2 then some (NodeRefSegment.make p.1 p.2)
      else none))

theorem NodeRefSegment.make_ring (a b : NodeRef) : (NodeRefSegment.make a b).ring = none := by
  unfold NodeRefSegment.make
  split <;> rfl

theorem extractWayGo_eq_spec (last : NodeRef) (w : List NodeRef) :
    extractWayGo last w = ((last :: w).zip w).filterMap (fun p =>
      if p.1.location.validB && !nrEqB p.1 p.2 then some (NodeRefSegment.make p.1 p.2)
      else none) := by
  induction w generalizing last with
  | nil => rfl
  | cons nr rest ih =>
    simp only [extractWayGo, ih nr, List.zip_cons_cons, List.filterMap_cons]
    cases h : last.location.validB && !nrEqB last nr <;> simp [h]

theorem default_location_invalid : (default : NodeRef).location.validB = false := by decide

/-- Claim C8: segment extraction iterates member ways in the caller-supplied order,
walks each node sequence pairwise and emits a segment exactly for the consecutive
pairs (prev, cur) where prev has a valid location and prev differs from cur in
identity; the extracted segments carry no ring back-reference. -/
theorem extraction_pairwise_iff (members : List Nat) (in_buffer : List Way) :
    extract_segments_from_ways members in_buffer = extractSpec members in_buffer ∧
      ∀ s ∈ extract_segments_from_ways members in_buffer, s.ring = none := by
  have hway : ∀ w : List Way, ∀ off : Nat,
      extractWayGo default ((in_buffer).getD off []) =
        (((in_buffer).getD off []).zip ((in_buffer).getD off []).tail).filterMap
          (fun p => if p.1.location.validB && !nrEqB p.1 p.2 then
            some (NodeRefSegment.make p.1 p.2) else none) := by
    intro _ off
    rw [extractWayGo_eq_spec]
    cases h : (in_buffer).getD off [] with
    | nil => rfl
    | cons x xs =>
      simp only [List.zip_cons_cons, List.filterMap_cons, List.tail_cons]
      rw [default_location_invalid]
      simp
  constructor
  · unfold extract_segments_from_ways extractSpec
    apply List.flatMap_congr
    intro off _
    exact hway in_buffer off
  · intro s hs
    unfold extract_segments_from_ways at hs
    rcases List.mem_flatMap.mp hs with ⟨off, _, hmem⟩
    rw [hway in_buffer off] at hmem
    rcases List.mem_filterMap.mp hmem with ⟨p, _, hp⟩
    by_cases hc : (p.1.location.validB && !nrEqB p.1 p.2) = true
    · rw [if_pos hc] at hp
      cases hp
      exact NodeRefSegment.make_ring p.1 p.2
    · rw [if_neg hc] at hp
      cases hp

/-- Inner search of `Assembler::find_and_erase_duplicate_segments`: locate the first
adjacent equal pair (`std::adjacent_find`) and erase both elements, or return `none`
when no adjacent pair is equal. -/
def eraseFirstAdjacentDup : List NodeRefSegment → Option (List NodeRefSegment)
  | [] => none
  | [_] => none
  | a :: b :: rest =>
    if segEqB a b then some rest
    else (eraseFirstAdjacentDup (b :: rest)).map (a :: ·)

theorem eraseFirstAdjacentDup_length (l : List NodeRefSegment) :
    ∀ l', eraseFirstAdjacentDup l = some l' → l'.length + 2 = l.length := by
  induction l with
  | nil => intro l' h; simp [eraseFirstAdjacentDup] at h
  | cons a t ih =>
    cases t with
    | nil => intro l' h; simp [eraseFirstAdjacentDup] at h
    | cons b rest =>
      intro l' h
      simp only [eraseFirstAdjacentDup] at h
      split at h
      · cases h
        simp
      · rcases Option.map_eq_some'.mp h with ⟨l'', h1, rfl⟩
        have := ih _ h1
        simp only [List.length_cons] at *
        omega

/-- Loop of `Assembler::find_and_erase_duplicate_segments` with an explicit fuel
bound; each erase step removes two elements, so `l.length` steps always suffice. -/
def dedupLoop : Nat → List NodeRefSegment → List NodeRefSegment
  | 0, l => l
  | fuel + 1, l =>
    match eraseFirstAdjacentDup l with
    | none => l
    | some l2 => dedupLoop fuel l2

/-- Embedding of `Assembler::find_and_erase_duplicate_segments`: repeatedly erase the
first adjacent equal pair until none remains. -/
def find_and_erase_duplicate_segments (l : List NodeRefSegment) : List NodeRefSegment :=
  dedupLoop l.length l

theorem eraseFirstAdjacentDup_some_decomp (l : List NodeRefSegment) :
    ∀ l', eraseFirstAdjacentDup l = some l' →
      ∃ p a b q, l = p ++ a :: b :: q ∧ segEqB a b = true ∧ l' = p ++ q := by
  induction l with
  | nil => intro l' h; simp [eraseFirstAdjacentDup] at h
  | cons a t ih =>
    cases t with
    | nil => intro l' h; simp [eraseFirstAdjacentDup] at h
    | cons b rest =>
      intro l' h
      simp only [eraseFirstAdjacentDup] at h
      split at h
      · cases h
        exact ⟨[], a, b, rest, rfl, by assumption, rfl⟩
      · rcases Option.map_eq_some'.mp h with ⟨l'', h1, rfl⟩
        rcases ih _ h1 with ⟨p, x, y, q, hdec, hxy, hl''⟩
        exact ⟨a :: p, x, y, q, by simp [hdec], hxy, by simp [hl'']⟩

theorem eraseFirstAdjacentDup_none_chain (l : List NodeRefSegment) :
    eraseFirstAdjacentDup l = none → l.Chain' (fun a b => segEqB a b = false) := by
  induction l with
  | nil => intro _; exact List.chain'_nil
  | cons a t ih =>
    cases t with
    | nil => intro _; simp
    | cons b rest =>
      intro h
      simp only [eraseFirstAdjacentDup] at h
      split at h
      · cases h
      · rename_i hne
        rw [Option.map_eq_none'] at h
        rw [List.chain'_cons]
        refine ⟨?_, ih h⟩
        cases hab : segEqB a b
        · rfl
        · exact absurd hab hne

theorem segEqB_trans {a b c : NodeRefSegment} (h1 : segEqB a b = true)
    (h2 : segEqB b c = true) : segEqB a c = true := by
  simp only [segEqB, Bool.and_eq_true, beq_iff_eq] at *
  exact ⟨h1.1.trans h2.1, h1.2.trans h2.2⟩

theorem segEqB_symm {a b : NodeRefSegment} (h : segEqB a b = true) : segEqB b a = true := by
  simp only [segEqB, Bool.and_eq_true, beq_iff_eq] at *
  exact ⟨h.1.symm, h.2.symm⟩

theorem seg_squeeze (a h y : NodeRefSegment) (h1 : segLeB a h = true)
    (h2 : segLeB h y = true) (h3 : segEqB a y = true) : segEqB a h = true := by
  rcases a with ⟨⟨_, ⟨ax1, ay1⟩⟩, ⟨_, ⟨ax2, ay2⟩⟩, _, _, _⟩
  rcases h with ⟨⟨_, ⟨hx1, hy1⟩⟩, ⟨_, ⟨hx2, hy2⟩⟩, _, _, _⟩
  rcases y with ⟨⟨_, ⟨yx1, yy1⟩⟩, ⟨_, ⟨yx2, yy2⟩⟩, _, _, _⟩
  simp only [segLeB, segLtB, segEqB, locLexLtB, Bool.not_eq_true', Bool.or_eq_false_iff,
    Bool.and_eq_false_iff, Bool.and_eq_true, Bool.or_eq_true, beq_iff_eq, beq_eq_false_iff_ne,
    ne_eq, decide_eq_true_eq, decide_eq_false_iff_not, Location.mk.injEq] at *
  omega

theorem countP_segEq_le_one (v : NodeRefSegment) (l : List NodeRefSegment)
    (hp : l.Pairwise (fun a b => segEqB a b = false)) :
    l.countP (fun s => segEqB v s) ≤ 1 := by
  induction l with
  | nil => simp
  | cons a t ih =>
    rcases List.pairwise_cons.mp hp with ⟨ha, ht⟩
    rw [List.countP_cons]
    by_cases hva : segEqB v a = true
    · have hzero : t.countP (fun s => segEqB v s) = 0 := by
        rw [List.countP_eq_zero]
        intro y hy
        by_contra hvy
        have hvy' : segEqB v y = true := by
          revert hvy; cases segEqB v y <;> simp
        have hcontra : segEqB a y = true := segEqB_trans (segEqB_symm hva) hvy'
        rw [ha y hy] at hcontra
        cases hcontra
      simp [hzero, hva]
    · have hle := ih ht
      have hva' : segEqB v a = false := by
        revert hva; cases segEqB v a <;> simp
      simp [hva']
      omega

theorem chainNe_sorted_pairwiseNe (l : List NodeRefSegment)
    (hs : l.Sorted (fun a b => segLeB a b = true))
    (hc : l.Chain' (fun a b => segEqB a b = false)) :
    l.Pairwise (fun a b => segEqB a b = false) := by
  induction l with
  | nil => exact List.Pairwise.nil
  | cons a t ih =>
    rcases List.sorted_cons.mp hs with ⟨ha, ht⟩
    refine List.Pairwise.cons ?_ (ih ht hc.tail)
    intro y hy
    by_contra hne
    rw [Bool.not_eq_false] at hne
    cases t with
    | nil => cases hy
    | cons h0 t0 =>
      have hah : segEqB a h0 = false := (List.chain'_cons.mp hc).1
      rcases List.mem_cons.mp hy with rfl | hy0
      · rw [hah] at hne; cases hne
      · have hh0y : segLeB h0 y = true := (List.sorted_cons.mp ht).1 y hy0
        have : segEqB a h0 = true :=
          seg_squeeze a h0 y (ha h0 (List.mem_cons_self h0 t0)) hh0y hne
        rw [hah] at this
        cases this

theorem dedupLoop_succ_none {n : Nat} {l : List NodeRefSegment}
    (h : eraseFirstAdjacentDup l = none) : dedupLoop (n + 1) l = l := by
  simp [dedupLoop, h]

theorem dedupLoop_succ_some {n : Nat} {l l2 : List NodeRefSegment}
    (h : eraseFirstAdjacentDup l = some l2) : dedupLoop (n + 1) l = dedupLoop n l2 := by
  simp [dedupLoop, h]

theorem dedupLoop_main (n : Nat) : ∀ l : List NodeRefSegment, l.length ≤ n →
    l.Sorted (fun a b => segLeB a b = true) →
    (∀ v, (dedupLoop n l).countP (fun s => segEqB v s) =
        l.countP (fun s => segEqB v s) % 2) ∧
      (dedupLoop n l).Pairwise (fun a b => segEqB a b = false) := by
  induction n with
  | zero =>
    intro l hlen hs
    have : l = [] := List.length_eq_zero.mp (Nat.le_zero.mp hlen)
    subst this
    exact ⟨fun v => rfl, List.Pairwise.nil⟩
  | succ n ih =>
    intro l hlen hs
    cases heq : eraseFirstAdjacentDup l with
    | none =>
      rw [dedupLoop_succ_none heq]
      constructor
      · intro v
        have hp := chainNe_sorted_pairwiseNe l hs (eraseFirstAdjacentDup_none_chain l heq)
        have := countP_segEq_le_one v l hp
        omega
      · exact chainNe_sorted_pairwiseNe l hs (eraseFirstAdjacentDup_none_chain l heq)
    | some l2 =>
      rw [dedupLoop_succ_some heq]
      rcases eraseFirstAdjacentDup_some_decomp l l2 heq with ⟨p, a, b, q, hdec, hab, hl2⟩
      have hsub : l2.Sublist l := by
        rw [hdec, hl2]
        refine List.Sublist.append_left ?_ p
        exact List.Sublist.trans (List.sublist_cons_self b q) (List.sublist_cons_self a (b :: q))
      have hs2 : l2.Sorted (fun a b => segLeB a b = true) := hs.sublist hsub
      have hlen2 : l2.length ≤ n := by
        have := eraseFirstAdjacentDup_length l l2 heq
        omega
      rcases ih l2 hlen2 hs2 with ⟨hcount, hpair⟩
      refine ⟨?_, hpair⟩
      intro v
      rw [hcount v, hdec, hl2]
      simp only [List.countP_append, List.countP_cons]
      by_cases hva : segEqB v a = true
      · have hvb : segEqB v b = true := segEqB_trans hva hab
        simp only [hva, hvb]
        omega
      · have hvb : segEqB v b = false := by
          by_contra hvb
          rw [Bool.not_eq_false] at hvb
          exact hva (segEqB_trans hvb (segEqB_symm hab))
        simp only [Bool.not_eq_true] at hva
        simp only [hva, hvb]
        omega

/-- Claim C7: on a sorted vector, `find_and_erase_duplicate_segments` reduces every
group of k equal segments to exactly k mod 2 copies (even groups vanish, odd groups
leave one copy), and afterwards no two remaining segments have equal endpoint pairs. -/
theorem dedup_odd_even (l : List NodeRefSegment)
    (hs : l.Sorted (fun a b => segLeB a b = true)) :
    (∀ v, (find_and_erase_duplicate_segments l).countP (fun s => segEqB v s) =
        l.countP (fun s => segEqB v s) % 2) ∧
      (find_and_erase_duplicate_segments l).Pairwise (fun a b => segEqB a b = false) :=
  dedupLoop_main l.length l (Nat.le_refl _) hs

/-- Modelled from the spec: discriminant of a recorded Problem. -/
inductive ProblemType
  | intersection
  | ring_not_closed
deriving DecidableEq, Repr

/-- Modelled from the spec: a recorded anomaly carrying a type, a NodeRef (possibly
synthesized with identity 0) and optionally the two involved segments. -/
structure Problem where
  ptype : ProblemType
  node_ref : NodeRef
  segs : Option (NodeRefSegment × NodeRefSegment)
deriving DecidableEq, Repr

/-- Orientation cross product: twice the signed area of the triangle (o, p, q). -/
def cross2 (o p q : Location) : Int :=
  (p.x - o.x) * (q.y - o.y) - (p.y - o.y) * (q.x - o.x)

/-- Modelled from the spec: the intersection test succeeds exactly when the two
segments cross at a point strictly inside both (shared endpoints and mere touches
do not count): each segment's endpoints lie strictly on opposite sides of the
other segment's supporting line. -/
def properCrossB (s1 s2 : NodeRefSegment) : Bool :=
  let a := s1.first.location
  let b := s1.second.location
  let c := s2.first.location
  let d := s2.second.location
  decide (cross2 a b c * cross2 a b d < 0) && decide (cross2 c d a * cross2 c d b < 0)

/-- Modelled from the spec: `calculate_intersection` returns the crossing location
when the segments properly cross, and the unset location otherwise; the returned
coordinates are the integer-rounded crossing point (no claim inspects the rounding). -/
def calculate_intersection (s1 s2 : NodeRefSegment) : Option Location :=
  if properCrossB s1 s2 then
    let a := s1.first.location
    let b := s1.second.location
    let c := s2.first.location
    let d := s2.second.location
    let den := cross2 a b d - cross2 a b c
    let fa := cross2 c d a
    some ⟨(den * a.x + fa * (b.x - a.x)) / den, (den * a.y + fa * (b.y - a.y)) / den⟩
  else none

/-- Modelled from the spec: `outside_x_range(s2, s1)` holds when s2 begins strictly
right of s1's right end. -/
def outside_x_range (s2 s1 : NodeRefSegment) : Bool :=
  s2.first.location.x > s1.second.location.x

/-- Modelled from the spec: y-interval overlap test between two segments. -/
def y_range_overlap (s1 s2 : NodeRefSegment) : Bool :=
  let lo1 := min s1.first.location.y s1.second.location.y
  let hi1 := max s1.first.location.y s1.second.location.y
  let lo2 := min s2.first.location.y s2.second.location.y
  let hi2 := max s2.first.location.y s2.second.location.y
  !(lo1 > hi2 || lo2 > hi1)

/-- Problem recorded for an intersection (source line 167). -/
def intersectionProblem (loc : Location) (s1 s2 : NodeRefSegment) : Problem :=
  ⟨ProblemType.intersection, ⟨0, loc⟩, some (s1, s2)⟩

/-- Inner loop of `Assembler::find_intersections` for a fixed `s1` over the segments
after it: equal segments are only logged, `outside_x_range` breaks the scan, and an
intersection inside overlapping y-ranges sets the flag and records a problem. -/
def innerScan (remember : Bool) (s1 : NodeRefSegment) :
    List NodeRefSegment → Bool × List Problem
  | [] => (false, [])
  | s2 :: rest =>
    if segEqB s1 s2 then innerScan remember s1 rest
    else if outside_x_range s2 s1 then (false, [])
    else
      match (if y_range_overlap s1 s2 then calculate_intersection s1 s2 else none) with
      | some loc =>
        let r := innerScan remember s1 rest
        (true, (if remember then [intersectionProblem loc s1 s2] else []) ++ r.2)
      | none => innerScan remember s1 rest

/-- Embedding of `Assembler::find_intersections`: the found flag plus the problems
recorded in scan order when problem collection is enabled. -/
def find_intersections (remember : Bool) : List NodeRefSegment → Bool × List Problem
  | [] => (false, [])
  | s1 :: rest =>
    let r1 := innerScan remember s1 rest
    let r2 := find_intersections remember rest
    (r1.1 || r2.1, r1.2 ++ r2.2)

/-- Canonical orientation predicate: the first endpoint is not lexicographically
greater than the second one. -/
def canonicalB (s : NodeRefSegment) : Bool :=
  !locLexLtB s.second.location s.first.location

theorem straddle_proj_overlap (a0 b0 c0 d0 fa gc D : Int)
    (hf : fa * (fa - D) < 0) (hg : gc * (gc + D) < 0)
    (heq : D * a0 + fa * (b0 - a0) = D * c0 - gc * (d0 - c0)) :
    min c0 d0 ≤ max a0 b0 ∧ min a0 b0 ≤ max c0 d0 := by
  have hD : D ≠ 0 := by
    intro h
    subst h
    nlinarith [sq_nonneg fa]
  rcases lt_or_gt_of_ne hD with hDneg | hDpos
  · have hfa1 : fa < 0 := by nlinarith
    have hfa2 : D < fa := by nlinarith
    have hgc1 : 0 < gc := by nlinarith
    have hgc2 : gc < -D := by nlinarith
    have hV1 : D * max a0 b0 ≤ D * a0 + fa * (b0 - a0) := by
      rcases le_total a0 b0 with h | h
      · rw [max_eq_right h]; nlinarith
      · rw [max_eq_left h]; nlinarith
    have hV2 : D * a0 + fa * (b0 - a0) ≤ D * min a0 b0 := by
      rcases le_total a0 b0 with h | h
      · rw [min_eq_left h]; nlinarith
      · rw [min_eq_right h]; nlinarith
    have hW1 : D * max c0 d0 ≤ D * c0 - gc * (d0 - c0) := by
      rcases le_total c0 d0 with h | h
      · rw [max_eq_right h]; nlinarith
      · rw [max_eq_left h]; nlinarith
    have hW2 : D * c0 - gc * (d0 - c0) ≤ D * min c0 d0 := by
      rcases le_total c0 d0 with h | h
      · rw [min_eq_left h]; nlinarith
      · rw [min_eq_right h]; nlinarith
    constructor
    · have hchain : D * max a0 b0 ≤ D * min c0 d0 := le_trans hV1 (heq ▸ hW2)
      nlinarith
    · have hchain : D * max c0 d0 ≤ D * min a0 b0 := le_trans hW1 (heq ▸ hV2)
      nlinarith
  · have hfa1 : 0 < fa := by nlinarith
    have hfa2 : fa < D := by nlinarith
    have hgc1 : gc < 0 := by nlinarith
    have hgc2 : -D < gc := by nlinarith
    have hV1 : D * min a0 b0 ≤ D * a0 + fa * (b0 - a0) := by
      rcases le_total a0 b0 with h | h
      · rw [min_eq_left h]; nlinarith
      · rw [min_eq_right h]; nlinarith
    have hV2 : D * a0 + fa * (b0 - a0) ≤ D * max a0 b0 := by
      rcases le_total a0 b0 with h | h
      · rw [max_eq_right h]; nlinarith
      · rw [max_eq_left h]; nlinarith
    have hW1 : D * min c0 d0 ≤ D * c0 - gc * (d0 - c0) := by
      rcases le_total c0 d0 with h | h
      · rw [min_eq_left h]; nlinarith
      · rw [min_eq_right h]; nlinarith
    have hW2 : D * c0 - gc * (d0 - c0) ≤ D * max c0 d0 := by
      rcases le_total c0 d0 with h | h
      · rw [max_eq_right h]; nlinarith
      · rw [max_eq_left h]; nlinarith
    constructor
    · have hchain : D * min c0 d0 ≤ D * max a0 b0 := le_trans (heq ▸ hW1) hV2
      nlinarith
    · have hchain : D * min a0 b0 ≤ D * max c0 d0 := le_trans hV1 (heq ▸ hW2)
      nlinarith

theorem properCross_overlap (s1 s2 : NodeRefSegment) (hpc : properCrossB s1 s2 = true) :
    (min s2.first.location.x s2.second.location.x ≤
        max s1.first.location.x s1.second.location.x ∧
      min s1.first.location.x s1.second.location.x ≤
        max s2.first.location.x s2.second.location.x) ∧
      (min s2.first.location.y s2.second.location.y ≤
          max s1.first.location.y s1.second.location.y ∧
        min s1.first.location.y s1.second.location.y ≤
          max s2.first.location.y s2.second.location.y) := by
  simp only [properCrossB, Bool.and_eq_true, decide_eq_true_eq] at hpc
  obtain ⟨hg, hf⟩ := hpc
  have hfD : cross2 s2.first.location s2.second.location s1.first.location *
      (cross2 s2.first.location s2.second.location s1.first.location -
        (cross2 s1.first.location s1.second.location s2.second.location -
          cross2 s1.first.location s1.second.location s2.first.location)) < 0 := by
    have hid : cross2 s2.first.location s2.second.location s1.first.location -
        (cross2 s1.first.location s1.second.location s2.second.location -
          cross2 s1.first.location s1.second.location s2.first.location) =
        cross2 s2.first.location s2.second.location s1.second.location := by
      simp only [cross2]
      ring
    rw [hid]
    exact hf
  have hgD : cross2 s1.first.location s1.second.location s2.first.location *
      (cross2 s1.first.location s1.second.location s2.first.location +
        (cross2 s1.first.location s1.second.location s2.second.location -
          cross2 s1.first.location s1.second.location s2.first.location)) < 0 := by
    have hid : cross2 s1.first.location s1.second.location s2.first.location +
        (cross2 s1.first.location s1.second.location s2.second.location -
          cross2 s1.first.location s1.second.location s2.first.location) =
        cross2 s1.first.location s1.second.location s2.second.location := by
      ring
    rw [hid]
    exact hg
  constructor
  · exact straddle_proj_overlap s1.first.location.x s1.second.location.x
      s2.first.location.x s2.second.location.x _ _ _ hfD hgD (by simp only [cross2]; ring)
  · exact straddle_proj_overlap s1.first.location.y s1.second.location.y
      s2.first.location.y s2.second.location.y _ _ _ hfD hgD (by simp only [cross2]; ring)

theorem canonicalB_x {s : NodeRefSegment} (h : canonicalB s = true) :
    s.first.location.x ≤ s.second.location.x := by
  rcases s with ⟨⟨_, ⟨x1, y1⟩⟩, ⟨_, ⟨x2, y2⟩⟩, _, _, _⟩
  simp only [canonicalB, locLexLtB, Bool.not_eq_true', Bool.or_eq_false_iff,
    Bool.and_eq_false_iff, beq_eq_false_iff_ne, ne_eq, decide_eq_false_iff_not,
    Location.mk.injEq, beq_iff_eq] at h
  simp only []
  omega

theorem segLeB_first_x {s t : NodeRefSegment} (h : segLeB s t = true) :
    s.first.location.x ≤ t.first.location.x := by
  rcases s with ⟨⟨_, ⟨x1, y1⟩⟩, ⟨_, ⟨x2, y2⟩⟩, _, _, _⟩
  rcases t with ⟨⟨_, ⟨x3, y3⟩⟩, ⟨_, ⟨x4, y4⟩⟩, _, _, _⟩
  simp only [segLeB, segLtB, locLexLtB, Bool.not_eq_true', Bool.or_eq_false_iff,
    Bool.and_eq_false_iff, beq_eq_false_iff_ne, ne_eq, decide_eq_false_iff_not,
    Location.mk.injEq, beq_iff_eq] at h
  simp only []
  omega

theorem not_outside_of_cross {s1 s2 h0 : NodeRefSegment} (hc1 : canonicalB s1 = true)
    (hc2 : canonicalB s2 = true) (hcross : properCrossB s1 s2 = true)
    (hle : segLeB h0 s2 = true) : outside_x_range h0 s1 = false := by
  have hxov := (properCross_overlap s1 s2 hcross).1.1
  have h1 := canonicalB_x hc1
  have h2 := canonicalB_x hc2
  have h3 := segLeB_first_x hle
  simp only [outside_x_range, gt_iff_lt, decide_eq_false_iff_not, not_lt]
  omega

theorem y_overlap_of_cross {s1 s2 : NodeRefSegment} (hcross : properCrossB s1 s2 = true) :
    y_range_overlap s1 s2 = true := by
  have hy := (properCross_overlap s1 s2 hcross).2
  simp only [y_range_overlap, gt_iff_lt, Bool.not_eq_true', Bool.or_eq_false_iff,
    decide_eq_false_iff_not, not_lt]
  omega

theorem properCross_of_segEq {s1 s2 : NodeRefSegment} (he : segEqB s1 s2 = true) :
    properCrossB s1 s2 = false := by
  simp only [segEqB, Bool.and_eq_true, beq_iff_eq] at he
  obtain ⟨h1, h2⟩ := he
  simp only [properCrossB, ← h1, ← h2, Bool.and_eq_false_iff]
  left
  have hz : cross2 s1.first.location s1.second.location s1.first.location = 0 := by
    simp only [cross2]
    ring
  rw [hz]
  simp

theorem calculate_intersection_cross {s1 s2 : NodeRefSegment} {loc : Location}
    (h : calculate_intersection s1 s2 = some loc) : properCrossB s1 s2 = true := by
  by_cases hc : properCrossB s1 s2 = true
  · exact hc
  · rw [calculate_intersection, if_neg hc] at h
    cases h

theorem calculate_intersection_isSome {s1 s2 : NodeRefSegment}
    (h : properCrossB s1 s2 = true) : (calculate_intersection s1 s2).isSome = true := by
  rw [calculate_intersection, if_pos h]
  rfl

theorem segLeB_refl (s : NodeRefSegment) : segLeB s s = true := by
  rcases s with ⟨⟨_, ⟨x1, y1⟩⟩, ⟨_, ⟨x2, y2⟩⟩, _, _, _⟩
  simp only [segLeB, segLtB, locLexLtB, Bool.not_eq_true', Bool.or_eq_false_iff,
    Bool.and_eq_false_iff, beq_eq_false_iff_ne, ne_eq, decide_eq_false_iff_not,
    Location.mk.injEq, beq_iff_eq, Bool.not_eq_eq_eq_not, Bool.not_true]
  omega

theorem innerScan_sound (remember : Bool) (s1 : NodeRefSegment) :
    ∀ tl : List NodeRefSegment, (innerScan remember s1 tl).1 = true →
      ∃ l2 s2 l3, tl = l2 ++ s2 :: l3 ∧ segEqB s1 s2 = false ∧
        properCrossB s1 s2 = true := by
  intro tl
  induction tl with
  | nil => intro h; simp [innerScan] at h
  | cons h0 rest ih =>
    intro hfound
    simp only [innerScan] at hfound
    by_cases he : segEqB s1 h0 = true
    · rw [if_pos he] at hfound
      rcases ih hfound with ⟨l2, s2, l3, hdec, hne, hcr⟩
      exact ⟨h0 :: l2, s2, l3, by simp [hdec], hne, hcr⟩
    · rw [if_neg he] at hfound
      by_cases ho : outside_x_range h0 s1 = true
      · rw [if_pos ho] at hfound
        cases hfound
      · rw [if_neg ho] at hfound
        cases hcalc : (if y_range_overlap s1 h0 then calculate_intersection s1 h0 else none) with
        | some loc =>
          rw [hcalc] at hfound
          have hcr : properCrossB s1 h0 = true := by
            by_cases hy : y_range_overlap s1 h0 = true
            · rw [if_pos hy] at hcalc
              exact calculate_intersection_cross hcalc
            · rw [if_neg hy] at hcalc
              cases hcalc
          exact ⟨[], h0, rest, rfl, by simpa using he, hcr⟩
        | none =>
          rw [hcalc] at hfound
          rcases ih hfound with ⟨l2, s2, l3, hdec, hne, hcr⟩
          exact ⟨h0 :: l2, s2, l3, by simp [hdec], hne, hcr⟩

theorem innerScan_complete (remember : Bool) (s1 s2 : NodeRefSegment)
    (hc1 : canonicalB s1 = true) (hc2 : canonicalB s2 = true)
    (hcross : properCrossB s1 s2 = true) :
    ∀ tl : List NodeRefSegment, List.Sorted (fun a b => segLeB a b = true) tl →
      ∀ l2 l3, tl = l2 ++ s2 :: l3 → (innerScan remember s1 tl).1 = true := by
  intro tl
  induction tl with
  | nil =>
    intro _ l2 l3 hdec
    cases l2 <;> simp at hdec
  | cons h0 rest ih =>
    intro hsorted l2 l3 hdec
    simp only [innerScan]
    cases l2 with
    | nil =>
      simp only [List.nil_append, List.cons.injEq] at hdec
      obtain ⟨rfl, rfl⟩ := hdec
      have hne : segEqB s1 h0 = false := by
        cases hq : segEqB s1 h0
        · rfl
        · rw [properCross_of_segEq hq] at hcross
          cases hcross
      rw [if_neg (by simp [hne])]
      have ho : outside_x_range h0 s1 = false :=
        not_outside_of_cross hc1 hc2 hcross (segLeB_refl h0)
      rw [if_neg (by simp [ho])]
      rw [if_pos (y_overlap_of_cross hcross)]
      cases hcalc : calculate_intersection s1 h0 with
      | some loc => rfl
      | none =>
        have hsome := calculate_intersection_isSome hcross
        rw [hcalc] at hsome
        cases hsome
    | cons x l2tail =>
      simp only [List.cons_append, List.cons.injEq] at hdec
      obtain ⟨rfl, hrest⟩ := hdec
      have hs2mem : s2 ∈ rest := by
        rw [hrest]
        exact List.mem_append_right l2tail (List.mem_cons_self s2 l3)
      have hrec : (innerScan remember s1 rest).1 = true :=
        ih (List.sorted_cons.mp hsorted).2 l2tail l3 hrest
      by_cases he : segEqB s1 h0 = true
      · rw [if_pos he]
        exact hrec
      · rw [if_neg he]
        have hle : segLeB h0 s2 = true := (List.sorted_cons.mp hsorted).1 s2 hs2mem
        have ho : outside_x_range h0 s1 = false :=
          not_outside_of_cross hc1 hc2 hcross hle
        rw [if_neg (by simp [ho])]
        cases hcalc : (if y_range_overlap s1 h0 then calculate_intersection s1 h0 else none) with
        | some loc => rfl
        | none => exact hrec

theorem find_intersections_sound (remember : Bool) :
    ∀ segs : List NodeRefSegment, (find_intersections remember segs).1 = true →
      ∃ l1 s1 l2 s2 l3, segs = l1 ++ s1 :: (l2 ++ s2 :: l3) ∧
        segEqB s1 s2 = false ∧ properCrossB s1 s2 = true := by
  intro segs
  induction segs with
  | nil => intro h; simp [find_intersections] at h
  | cons s1 rest ih =>
    intro hfound
    simp only [find_intersections, Bool.or_eq_true] at hfound
    rcases hfound with hinner | houter
    · rcases innerScan_sound remember s1 rest hinner with ⟨l2, s2, l3, hdec, hne, hcr⟩
      exact ⟨[], s1, l2, s2, l3, by simp [hdec], hne, hcr⟩
    · rcases ih houter with ⟨l1, t1, l2, t2, l3, hdec, hne, hcr⟩
      exact ⟨s1 :: l1, t1, l2, t2, l3, by simp [hdec], hne, hcr⟩

theorem find_intersections_complete (remember : Bool) :
    ∀ segs : List NodeRefSegment, (∀ s ∈ segs, canonicalB s = true) →
      List.Sorted (fun a b => segLeB a b = true) segs →
      ∀ l1 s1 l2 s2 l3, segs = l1 ++ s1 :: (l2 ++ s2 :: l3) →
        properCrossB s1 s2 = true → (find_intersections remember segs).1 = true := by
  intro segs
  induction segs with
  | nil =>
    intro _ _ l1 s1 l2 s2 l3 hdec
    cases l1 <;> simp at hdec
  | cons h0 rest ih =>
    intro hcan hsorted l1 s1 l2 s2 l3 hdec hcross
    simp only [find_intersections, Bool.or_eq_true]
    cases l1 with
    | nil =>
      simp only [List.nil_append, List.cons.injEq] at hdec
      obtain ⟨rfl, hrest⟩ := hdec
      left
      have hc1 : canonicalB h0 = true := hcan h0 (List.mem_cons_self h0 rest)
      have hc2 : canonicalB s2 = true := by
        refine hcan s2 (List.mem_cons_of_mem h0 ?_)
        rw [hrest]
        exact List.mem_append_right l2 (List.mem_cons_self s2 l3)
      exact innerScan_complete remember h0 s2 hc1 hc2 hcross rest
        (List.sorted_cons.mp hsorted).2 l2 l3 hrest
    | cons x l1tail =>
      simp only [List.cons_append, List.cons.injEq] at hdec
      obtain ⟨rfl, hrest⟩ := hdec
      right
      refine ih (fun s hsmem => hcan s (List.mem_cons_of_mem h0 hsmem))
        (List.sorted_cons.mp hsorted).2 l1tail s1 l2 s2 l3 hrest hcross

/-- Claim C4: on the sorted, canonically oriented vector, `find_intersections`
returns true exactly when some later segment properly crosses an earlier one
strictly inside both (exactly equal segment pairs never count), and the early
break on `outside_x_range` never skips a crossing pair. -/
theorem find_intersections_iff (remember : Bool) (segs : List NodeRefSegment)
    (hcanon : ∀ s ∈ segs, canonicalB s = true)
    (hsorted : List.Sorted (fun a b => segLeB a b = true) segs) :
    (find_intersections remember segs).1 = true ↔
      ∃ l1 s1 l2 s2 l3, segs = l1 ++ s1 :: (l2 ++ s2 :: l3) ∧
        segEqB s1 s2 = false ∧ properCrossB s1 s2 = true := by
  constructor
  · exact find_intersections_sound remember segs
  · rintro ⟨l1, s1, l2, s2, l3, hdec, _, hcross⟩
    exact find_intersections_complete remember segs hcanon hsorted l1 s1 l2 s2 l3 hdec hcross

/-- Witness for claim C4 on a concrete bowtie: the two diagonals of a square,
canonically oriented and sorted, properly cross. -/
theorem find_intersections_iff_witness :
    (find_intersections false
        [⟨⟨1, ⟨0, 0⟩⟩, ⟨2, ⟨10, 10⟩⟩, none, false, none⟩,
          ⟨⟨3, ⟨0, 10⟩⟩, ⟨4, ⟨10, 0⟩⟩, none, false, none⟩]).1 = true ↔
      ∃ l1 s1 l2 s2 l3,
        [(⟨⟨1, ⟨0, 0⟩⟩, ⟨2, ⟨10, 10⟩⟩, none, false, none⟩ : NodeRefSegment),
            ⟨⟨3, ⟨0, 10⟩⟩, ⟨4, ⟨10, 0⟩⟩, none, false, none⟩] =
          l1 ++ s1 :: (l2 ++ s2 :: l3) ∧
          segEqB s1 s2 = false ∧ properCrossB s1 s2 = true :=
  find_intersections_iff false _ (by decide) (by decide)

/-- Modelled from the spec: a proto-ring is an ordered NodeRef sequence (a polyline
under construction) plus the ids of the inner rings attached to it. -/
structure ProtoRing where
  nodes : List NodeRef
  inner_rings : List Nat
deriving DecidableEq, Repr

/-- First NodeRef of a ring (`ProtoRing::first`); rings under construction always
hold at least two nodes. -/
def ProtoRing.first (r : ProtoRing) : NodeRef := r.nodes.headD default

/-- Last NodeRef of a ring (`ProtoRing::last`). -/
def ProtoRing.last (r : ProtoRing) : NodeRef := r.nodes.getLastD default

/-- Modelled from the spec: a ring is closed iff its first and last NodeRef locations
coincide and it contains at least three distinct points. -/
def ProtoRing.closed (r : ProtoRing) : Bool :=
  (r.first.location == r.last.location) &&
    decide (3 ≤ ((r.nodes.map (fun nr => nr.location)).dedup).length)

/-- Modelled from the spec: append the NodeRef at the end of the ring. -/
def ProtoRing.add_location_end (r : ProtoRing) (nr : NodeRef) : ProtoRing :=
  ⟨r.nodes ++ [nr], r.inner_rings⟩

/-- Modelled from the spec: prepend the NodeRef at the start of the ring. -/
def ProtoRing.add_location_start (r : ProtoRing) (nr : NodeRef) : ProtoRing :=
  ⟨nr :: r.nodes, r.inner_rings⟩

/-- Ring store: association list from ring id to ring, in `std::list` order. -/
abbrev RingList := List (Nat × ProtoRing)

def getRing (rings : RingList) (rid : Nat) : Option ProtoRing :=
  (rings.find? (fun p => p.1 == rid)).map (fun p => p.2)

def setRing (rings : RingList) (rid : Nat) (r : ProtoRing) : RingList :=
  rings.map (fun p => if p.1 == rid then (p.1, r) else p)

def eraseRing (rings : RingList) (rid : Nat) : RingList :=
  rings.filter (fun p => p.1 != rid)

/-- Embedding of `Assembler::has_closed_subring_end`: returns the C++ return value
(true on the ring-closure path only when debug output is on, source line 296)
together with the updated ring store and the next fresh ring id.  On an interior
location match the ring is split: the tail from the match on becomes a new ring
appended to the store, and the original ring is truncated at the match. -/
def has_closed_subring_end (debug : Bool) (rings : RingList) (nextId : Nat)
    (rid : Nat) (node_ref : NodeRef) : Bool × RingList × Nat :=
  match getRing rings rid with
  | none => (false, rings, nextId)
  | some ring =>
    if node_ref.location == ring.first.location then (debug, rings, nextId)
    else
      match ring.nodes.dropLast.findIdx? (fun nr => nr.location == node_ref.location) with
      | some j =>
        (true, setRing rings rid ⟨ring.nodes.take (j + 1), ring.inner_rings⟩ ++
          [(nextId, ⟨ring.nodes.drop j, []⟩)], nextId + 1)
      | none => (false, rings, nextId)

/-- Embedding of `Assembler::has_closed_subring_start` (the symmetric split, scanning
the nodes after the newly prepended one). -/
def has_closed_subring_start (debug : Bool) (rings : RingList) (nextId : Nat)
    (rid : Nat) (node_ref : NodeRef) : Bool × RingList × Nat :=
  match getRing rings rid with
  | none => (false, rings, nextId)
  | some ring =>
    if node_ref.location == ring.last.location then (debug, rings, nextId)
    else
      match ring.nodes.tail.findIdx? (fun nr => nr.location == node_ref.location) with
      | some j0 =>
        (true, setRing rings rid ⟨ring.nodes.drop (j0 + 1), ring.inner_rings⟩ ++
          [(nextId, ⟨ring.nodes.take (j0 + 2), []⟩)], nextId + 1)
      | none => (false, rings, nextId)

/-- Embedding of `Assembler::possibly_combine_rings_end`: the first other open ring
whose first location equals this ring's last location is merged in (dropping the
shared endpoint) and erased; its id is reported for the segment link update. -/
def possibly_combine_rings_end (rings : RingList) (rid : Nat) : Option Nat × RingList :=
  match getRing rings rid with
  | none => (none, rings)
  | some ring =>
    match rings.find? (fun p => p.1 != rid && !p.2.closed &&
        ring.last.location == p.2.first.location) with
    | some (oid, other) =>
      (some oid,
        eraseRing (setRing rings rid ⟨ring.nodes ++ other.nodes.tail, ring.inner_rings⟩) oid)
    | none => (none, rings)

/-- Embedding of `Assembler::possibly_combine_rings_start`: the first other open ring
whose last location equals this ring's first location is prepended (after the node
swap, dropping the shared endpoint) and erased. -/
def possibly_combine_rings_start (rings : RingList) (rid : Nat) : Option Nat × RingList :=
  match getRing rings rid with
  | none => (none, rings)
  | some ring =>
    match rings.find? (fun p => p.1 != rid && !p.2.closed &&
        ring.first.location == p.2.last.location) with
    | some (oid, other) =>
      (some oid,
        eraseRing (setRing rings rid ⟨other.nodes ++ ring.nodes.tail, ring.inner_rings⟩) oid)
    | none => (none, rings)

/-- Embedding of `Assembler::update_ring_link_in_segments`. -/
def update_ring_link_in_segments (old_ring new_ring : Nat)
    (segs : List NodeRefSegment) : List NodeRefSegment :=
  segs.map (fun s => if s.ring == some old_ring then {s with ring := some new_ring} else s)

/-- Construction state: the segment vector, the ring store and the next fresh id. -/
structure BuildState where
  segs : List NodeRefSegment
  rings : RingList
  nextId : Nat
deriving DecidableEq, Repr

/-- Embedding of `Assembler::combine_rings`: set the segment's ring link, extend the
ring with the NodeRef, run the closed-subring check (whose Boolean result the source
discards, lines 359-367), attempt a merge, and update the links of the consumed
ring's segments. -/
def combine_rings (debug : Bool) (st : BuildState) (i : Nat) (node_ref : NodeRef)
    (rid : Nat) (at_end : Bool) : BuildState :=
  let s := st.segs.getD i default
  let segs1 := st.segs.set i {s with ring := some rid}
  if at_end then
    let rings1 :=
      match getRing st.rings rid with
      | some r => setRing st.rings rid (r.add_location_end node_ref)
      | none => st.rings
    let hc := has_closed_subring_end debug rings1 st.nextId rid node_ref
    let pc := possibly_combine_rings_end hc.2.1 rid
    let segs2 :=
      match pc.1 with
      | some oid => update_ring_link_in_segments oid rid segs1
      | none => segs1
    ⟨segs2, pc.2, hc.2.2⟩
  else
    let rings1 :=
      match getRing st.rings rid with
      | some r => setRing st.rings rid (r.add_location_start node_ref)
      | none => st.rings
    let hc := has_closed_subring_start debug rings1 st.nextId rid node_ref
    let pc := possibly_combine_rings_start hc.2.1 rid
    let segs2 :=
      match pc.1 with
      | some oid => update_ring_link_in_segments oid rid segs1
      | none => segs1
    ⟨segs2, pc.2, hc.2.2⟩

/-- Attachment test of the ring-construction loop (assembler lines 499-515): the four
NodeRef comparisons in source order; yields the NodeRef to add and whether the
attachment is at the end. -/
def matchCase (r : ProtoRing) (s : NodeRefSegment) : Option (NodeRef × Bool) :=
  if nrEqB r.last s.first then some (s.second, true)
  else if nrEqB r.last s.second then some (s.first, true)
  else if nrEqB r.first s.first then some (s.second, false)
  else if nrEqB r.first s.second then some (s.first, false)
  else none

/-- Ring scan of the construction loop: the first open ring, in store order, whose
first or last NodeRef matches one of the segment's NodeRefs. -/
def findAttach : RingList → NodeRefSegment → Option (Nat × NodeRef × Bool)
  | [], _ => none
  | (rid, r) :: rest, s =>
    if !r.closed then
      match matchCase r s with
      | some (nr, at_end) => some (rid, nr, at_end)
      | none => findAttach rest s
    else findAttach rest s

/-- Round a natural number to the nearest multiple of 2^k, ties to the even
multiple (the IEEE round-to-nearest-even rule on a fixed binade). -/
def roundNearestEven (m k : Nat) : Nat :=
  let q := m / 2 ^ k
  let r := m % 2 ^ k
  if 2 * r < 2 ^ k then q * 2 ^ k
  else if 2 ^ k < 2 * r then (q + 1) * 2 ^ k
  else (if q % 2 = 0 then q else q + 1) * 2 ^ k

/-- Fuel-driven search for the binade exponent: halve until the magnitude drops
below 2^53; the fuel (the magnitude itself) always suffices. -/
def ulpExpGo : Nat → Nat → Nat
  | 0, _ => 0
  | fuel + 1, m => if m < 2 ^ 53 then 0 else ulpExpGo fuel (m / 2) + 1

/-- Exponent k of the unit in the last place of an integer-valued IEEE double of
magnitude m: 0 for magnitudes below 2^53, else the distance of the binade of m
from the 53-bit range. -/
def ulpExp (m : Nat) : Nat := ulpExpGo m m

/-- Rounding of an integer to the nearest IEEE double (53-bit mantissa,
round-to-nearest-even); integers of magnitude below 2^53 are exact. -/
def roundDouble (n : Int) : Int :=
  let rm := roundNearestEven n.natAbs (ulpExp n.natAbs)
  if n < 0 then -(rm : Int) else (rm : Int)

/-- Embedding of `detail::is_below` (assembler lines 62-70): the source converts
the int32 coordinates to doubles (exactly) and evaluates
((bx-ax)*(cy-ay) - (by-ay)*(cx-ax)) <= 0 in IEEE double arithmetic, so every
intermediate difference, product and the final subtraction is rounded to a
53-bit-mantissa double, modelled by `roundDouble`. -/
def is_below (loc : Location) (seg : NodeRefSegment) : Bool :=
  let ax := seg.first.location.x
  let bx := seg.second.location.x
  let cx := loc.x
  let ay := seg.first.location.y
  let by0 := seg.second.location.y
  let cy := loc.y
  let d1 := roundDouble (bx - ax)
  let d2 := roundDouble (cy - ay)
  let d3 := roundDouble (by0 - ay)
  let d4 := roundDouble (cx - ax)
  decide (roundDouble (roundDouble (d1 * d2) - roundDouble (d3 * d4)) ≤ 0)

/-- The signed-cross-product below-or-on test as the spec states it, in exact
integer arithmetic: the reading of `is_below` used by claim C6. -/
def is_below_exact (loc : Location) (seg : NodeRefSegment) : Bool :=
  let ax := seg.first.location.x
  let bx := seg.second.location.x
  let cx := loc.x
  let ay := seg.first.location.y
  let by0 := seg.second.location.y
  let cy := loc.y
  decide ((bx - ax) * (cy - ay) - (by0 - ay) * (cx - ax) ≤ 0)

/-- Candidate test of the winding scan (assembler lines 541-558): the candidate's
y-interval contains the seed location's y, and either both candidate endpoints are
strictly left of it or the seed location is below-or-on the candidate. -/
def windingCandidate (s : NodeRefSegment) (loc : Location) : Bool :=
  (decide (min s.first.location.y s.second.location.y ≤ loc.y) &&
    decide (loc.y ≤ max s.first.location.y s.second.location.y)) &&
    ((decide (s.first.location.x < loc.x) && decide (s.second.location.x < loc.x)) ||
      is_below loc s)

/-- Candidate test of the winding scan with the below-or-on test read exactly, as
claim C6 words it (the y-range and strict-x comparisons are int32 in the source
and never rounded). -/
def windingCandidateExact (s : NodeRefSegment) (loc : Location) : Bool :=
  (decide (min s.first.location.y s.second.location.y ≤ loc.y) &&
    decide (loc.y ≤ max s.first.location.y s.second.location.y)) &&
    ((decide (s.first.location.x < loc.x) && decide (s.second.location.x < loc.x)) ||
      is_below_exact loc s)

/-- No-rounding bound for one winding candidate against one seed location: the four
coordinate differences, the two cross products and their difference all stay
strictly below 2^53 in magnitude, so the double evaluation of `is_below` incurs no
rounding and agrees with the exact test. -/
def crossTermsSmall (s : NodeRefSegment) (loc : Location) : Bool :=
  decide ((s.second.location.x - s.first.location.x).natAbs < 2 ^ 53) &&
    decide ((loc.y - s.first.location.y).natAbs < 2 ^ 53) &&
    decide ((s.second.location.y - s.first.location.y).natAbs < 2 ^ 53) &&
    decide ((loc.x - s.first.location.x).natAbs < 2 ^ 53) &&
    decide (((s.second.location.x - s.first.location.x) *
      (loc.y - s.first.location.y)).natAbs < 2 ^ 53) &&
    decide (((s.second.location.y - s.first.location.y) *
      (loc.x - s.first.location.x)).natAbs < 2 ^ 53) &&
    decide (((s.second.location.x - s.first.location.x) * (loc.y - s.first.location.y) -
      (s.second.location.y - s.first.location.y) * (loc.x - s.first.location.x)).natAbs
      < 2 ^ 53)

/-- Backward walk of the winding classifier over the already-processed segments
(latest first, paired with their vector indices). -/
def windingScanAux (loc : Location) : List (Nat × NodeRefSegment) → Bool × Option Nat
  | [] => (true, none)
  | (i, s) :: rest =>
    if windingCandidate s loc then (!s.cw, some i) else windingScanAux loc rest

/-- Winding classification at ring creation (assembler lines 530-562): scan the
previously processed segments backwards from the latest; cw defaults to true. -/
def windingScan (prev : List NodeRefSegment) (loc : Location) : Bool × Option Nat :=
  windingScanAux loc prev.enum.reverse

/-- One iteration of the ring-construction loop for the segment at index `i`:
attach to the first matching open ring, or seed a new ring with the winding
classification. -/
def stepSegment (debug : Bool) (st : BuildState) (i : Nat) : BuildState :=
  let s := st.segs.getD i default
  match findAttach st.rings s with
  | some (rid, nr, at_end) => combine_rings debug st i nr rid at_end
  | none =>
    let w := windingScan (st.segs.take i) s.first.location
    ⟨st.segs.set i {s with cw := w.1, left_segment := w.2, ring := some st.nextId},
      st.rings ++ [(st.nextId, ⟨[s.first, s.second], []⟩)], st.nextId + 1⟩

/-- Ring-construction pass of `Assembler::operator()` over all segments in order. -/
def ringConstruction (debug : Bool) (segs : List NodeRefSegment) : BuildState :=
  (List.range segs.length).foldl (stepSegment debug) ⟨segs, [], 0⟩

/-- Embedding of `Assembler::check_for_open_rings`: scan rings in store order; for
each open ring record two ring_not_closed problems (the ring's first and last
NodeRef) when problem collection is enabled. -/
def check_for_open_rings (remember : Bool) : RingList → Bool × List Problem
  | [] => (false, [])
  | (_, r) :: rest =>
    let res := check_for_open_rings remember rest
    if !r.closed then
      (true, (if remember then
        [⟨ProblemType.ring_not_closed, r.first, none⟩,
          ⟨ProblemType.ring_not_closed, r.last, none⟩] else []) ++ res.2)
    else res

/-- Modelled from the spec: a ring is outer when the aggregate winding of its
constituent segments is clockwise (majority vote over the segments linked to it). -/
def is_outer (segs : List NodeRefSegment) (rid : Nat) : Bool :=
  let mine := segs.filter (fun s => s.ring == some rid)
  decide (mine.length ≤ 2 * mine.countP (fun s => s.cw))

/-- Modelled from the spec: walk of the left-segment chain used by
`ProtoRing::find_outer`, fuel-bounded by the segment count. -/
def find_outer_go (segs : List NodeRefSegment) : Nat → Option Nat → Option Nat
  | _, none => none
  | 0, some _ => none
  | fuel + 1, some k =>
    let s := segs.getD k default
    match s.ring with
    | some rid2 =>
      if is_outer segs rid2 then some rid2
      else find_outer_go segs fuel s.left_segment
    | none => find_outer_go segs fuel s.left_segment

/-- Modelled from the spec: `ProtoRing::find_outer` follows the seed segment's
recorded left neighbor back to a segment whose ring is outer; the seed is the first
segment linked to the ring. -/
def find_outer (segs : List NodeRefSegment) (rid : Nat) : Option Nat :=
  match segs.find? (fun s => s.ring == some rid) with
  | some seed => find_outer_go segs segs.length seed.left_segment
  | none => none

/-- Nesting pass (assembler lines 600-622): outer rings are collected in order; each
inner ring is attached to the outer ring found through the left-segment chain;
failure to find one aborts the pass. -/
def nestRings (segs : List NodeRefSegment) : List Nat → RingList → List Nat →
    Option (RingList × List Nat)
  | [], rings, outers => some (rings, outers)
  | rid :: rest, rings, outers =>
    if is_outer segs rid then nestRings segs rest rings (outers ++ [rid])
    else
      match find_outer segs rid with
      | some oid =>
        match getRing rings oid with
        | some r =>
          nestRings segs rest (setRing rings oid ⟨r.nodes, r.inner_rings ++ [rid]⟩) outers
        | none => none
      | none => none

/-- Area header attributes copied from the relation (assembler lines 182-197). -/
structure AreaAttrs where
  id : Int
  version : Nat
  changeset : Nat
  timestamp : Nat
  visible : Bool
  uid : Nat
  user : String
deriving DecidableEq, Repr

/-- Modelled from the spec: the relation attributes and tags consumed by the
assembler. -/
structure Relation where
  id : Int
  version : Nat
  changeset : Nat
  timestamp : Nat
  visible : Bool
  uid : Nat
  user : String
  tags : List (String × String)
deriving DecidableEq, Repr

/-- Committed records of the output buffer. -/
inductive Record
  | areaHeader (attrs : AreaAttrs) (tags : List (String × String))
  | outerRing (nodes : List NodeRef)
  | innerRing (nodes : List NodeRef)
deriving DecidableEq, Repr

/-- Embedding of `initialize_area_from_relation` plus the first `commit`: the area
header with id = relation.id * 2 + 1 and the copied attributes and tags. -/
def relHeader (rel : Relation) : Record :=
  Record.areaHeader ⟨rel.id * 2 + 1, rel.version, rel.changeset, rel.timestamp,
    rel.visible, rel.uid, rel.user⟩ rel.tags

/-- Embedding of `Assembler::add_rings_to_area`: each outer ring record followed by
its inner ring records, committed per outer ring. -/
def add_rings_to_area (rings : RingList) (outers : List Nat) : List Record :=
  outers.flatMap (fun rid =>
    match getRing rings rid with
    | none => []
    | some r =>
      Record.outerRing r.nodes ::
        r.inner_rings.filterMap
          (fun iid => (getRing rings iid).map (fun ir => Record.innerRing ir.nodes)))

/-- Preparation pipeline of `Assembler::operator()`: extract, sort, dedup. -/
def prepareSegments (members : List Nat) (in_buffer : List Way) : List NodeRefSegment :=
  find_and_erase_duplicate_segments
    (sortSegments (extract_segments_from_ways members in_buffer))

/-- Embedding of `Assembler::operator()`: returns the problems recorded during this
invocation and the committed contents of the output buffer.  The empty-area header
is committed before the intersection check; each failure path returns with the
header as the only committed record. -/
def assemble (debug remember : Bool) (rel : Relation) (members : List Nat)
    (in_buffer : List Way) : List Problem × List Record :=
  let segs := prepareSegments members in_buffer
  let header := relHeader rel
  let fi := find_intersections remember segs
  if fi.1 then (fi.2, [header])
  else
    let bst := ringConstruction debug segs
    let co := check_for_open_rings remember bst.rings
    if co.1 then (fi.2 ++ co.2, [header])
    else
      match nestRings bst.segs (bst.rings.map (fun p => p.1)) bst.rings [] with
      | none => (fi.2 ++ co.2, [header])
      | some (ringsF, outers) => (fi.2 ++ co.2, header :: add_rings_to_area ringsF outers)

/-- Per-instance assembler state: the persistent problem list and the two
configuration flags (assembler lines 82-88). -/
structure Assembler where
  m_problems : List Problem
  m_remember_problems : Bool
  m_debug : Bool
deriving DecidableEq, Repr

/-- Embedding of `Assembler::enable_debug_output`. -/
def enable_debug_output (a : Assembler) (debug : Bool) : Assembler :=
  {a with m_debug := debug}

/-- Embedding of `Assembler::remember_problems`. -/
def remember_problems (a : Assembler) (remember : Bool) : Assembler :=
  {a with m_remember_problems := remember}

/-- Embedding of `Assembler::clear_problems`. -/
def clear_problems (a : Assembler) : Assembler :=
  {a with m_problems := []}

/-- Embedding of the read-only accessor `Assembler::problems`. -/
def problems (a : Assembler) : List Problem := a.m_problems

/-- Full invocation `assembler(relation, members, in_buffer, out_buffer)`: problems
found are appended to the persistent list; the committed out-buffer records are
returned alongside the updated instance. -/
def runAssembler (a : Assembler) (rel : Relation) (members : List Nat)
    (in_buffer : List Way) : Assembler × List Record :=
  let r := assemble a.m_debug a.m_remember_problems rel members in_buffer
  ({a with m_problems := a.m_problems ++ r.1}, r.2)

/-- Claim-side variant of the attachment test using location equality, as claim C1
words it ("by location equality (not by identity)"), in the same four-case order. -/
def matchCaseLoc (r : ProtoRing) (s : NodeRefSegment) : Option (NodeRef × Bool) :=
  if r.last.location == s.first.location then some (s.second, true)
  else if r.last.location == s.second.location then some (s.first, true)
  else if r.first.location == s.first.location then some (s.second, false)
  else if r.first.location == s.second.location then some (s.first, false)
  else none

/-- Claim-side attachment scan by location equality (claim C1 as stated). -/
def findAttachLoc : RingList → NodeRefSegment → Option (Nat × NodeRef × Bool)
  | [], _ => none
  | (rid, r) :: rest, s =>
    if !r.closed then
      match matchCaseLoc r s with
      | some (nr, at_end) => some (rid, nr, at_end)
      | none => findAttachLoc rest s
    else findAttachLoc rest s

/-- Declarative description of the attachment rule (claim C1 as amended): the first
open ring, in store order, one of whose two end NodeRefs matches one of the
segment's NodeRefs by identity; the NodeRef added and the attachment side are given
by the first matching case in the fixed order (last/first, last/second, first/first,
first/second). -/
def attachSpec (rings : RingList) (s : NodeRefSegment) : Option (Nat × NodeRef × Bool) :=
  (rings.find? (fun p => !p.2.closed &&
      (nrEqB p.2.last s.first || nrEqB p.2.last s.second ||
        nrEqB p.2.first s.first || nrEqB p.2.first s.second))).map
    (fun p => (p.1,
      if nrEqB p.2.last s.first then (s.second, true)
      else if nrEqB p.2.last s.second then (s.first, true)
      else if nrEqB p.2.first s.first then (s.second, false)
      else (s.first, false)))

/-- Counterexample to claim C1 as stated: after the first segment of this two-way
input has seeded a ring, the second segment matches that ring's last NodeRef by
location (identity 2 versus identity 3 at the same location), yet the construction
loop does not attach it — it seeds a second ring instead.  The location-equality
reading of the attachment rule is therefore false for this code. -/
theorem attach_by_location_refuted :
    findAttachLoc
        (stepSegment false
          ⟨prepareSegments [0, 1] [[⟨1, ⟨0, 0⟩⟩, ⟨2, ⟨1, 0⟩⟩], [⟨3, ⟨1, 0⟩⟩, ⟨4, ⟨2, 0⟩⟩]],
            [], 0⟩ 0).rings
        ((stepSegment false
          ⟨prepareSegments [0, 1] [[⟨1, ⟨0, 0⟩⟩, ⟨2, ⟨1, 0⟩⟩], [⟨3, ⟨1, 0⟩⟩, ⟨4, ⟨2, 0⟩⟩]],
            [], 0⟩ 0).segs.getD 1 default) = some (0, ⟨4, ⟨2, 0⟩⟩, true) ∧
      findAttach
        (stepSegment false
          ⟨prepareSegments [0, 1] [[⟨1, ⟨0, 0⟩⟩, ⟨2, ⟨1, 0⟩⟩], [⟨3, ⟨1, 0⟩⟩, ⟨4, ⟨2, 0⟩⟩]],
            [], 0⟩ 0).rings
        ((stepSegment false
          ⟨prepareSegments [0, 1] [[⟨1, ⟨0, 0⟩⟩, ⟨2, ⟨1, 0⟩⟩], [⟨3, ⟨1, 0⟩⟩, ⟨4, ⟨2, 0⟩⟩]],
            [], 0⟩ 0).segs.getD 1 default) = none := by
  decide

/-- Claim C1 (amended): during ring construction a segment is attached to the first
open ring whose first or last NodeRef matches one of the segment's two NodeRefs by
NodeRef identity (not location), with the four cases tested in source order and the
first match taken. -/
theorem findAttach_eq_attachSpec (rings : RingList) (s : NodeRefSegment) :
    findAttach rings s = attachSpec rings s := by
  induction rings with
  | nil => rfl
  | cons p rest ih =>
    obtain ⟨rid, r⟩ := p
    cases hclosed : r.closed
    · cases h1 : nrEqB r.last s.first
      · cases h2 : nrEqB r.last s.second
        · cases h3 : nrEqB r.first s.first
          · cases h4 : nrEqB r.first s.second
            · simp [findAttach, attachSpec, matchCase, List.find?, hclosed, h1, h2, h3, h4,
                attachSpec] at ih ⊢
              exact ih
            · simp [findAttach, attachSpec, matchCase, List.find?, hclosed, h1, h2, h3, h4]
          · simp [findAttach, attachSpec, matchCase, List.find?, hclosed, h1, h2, h3]
        · simp [findAttach, attachSpec, matchCase, List.find?, hclosed, h1, h2]
      · simp [findAttach, attachSpec, matchCase, List.find?, hclosed, h1]
    · simp [findAttach, attachSpec, matchCase, List.find?, hclosed]
      exact ih

/-- Consecutive-pair containment: the node sequence holds the two locations as an
adjacent pair in either order. -/
def hasConsecPair (nodes : List NodeRef) (l1 l2 : Location) : Bool :=
  (nodes.zip nodes.tail).any (fun p =>
    (p.1.location == l1 && p.2.location == l2) ||
      (p.1.location == l2 && p.2.location == l1))

/-- Ring-link invariant of claim C2: every segment with a set ring back-reference
points to a stored ring whose node sequence contains the segment's endpoint pair
as a consecutive pair (by location). -/
def ringLinkInvB (segs : List NodeRefSegment) (rings : RingList) : Bool :=
  segs.all (fun s =>
    match s.ring with
    | none => true
    | some rid =>
      match getRing rings rid with
      | none => false
      | some r => hasConsecPair r.nodes s.first.location s.second.location)

/-- Claim C2 is violated by the code: on this single-way input the ring
[a b c d x] self-touches at b when the last segment is attached, so
`has_closed_subring_end` splits it into the closed ring [b c d x] and the truncated
ring [a b]; the segments of the split-off part still point to the truncated ring
(`update_ring_link_in_segments` is only called on merges, never on splits), whose
node sequence no longer contains their endpoint pairs. -/
theorem ring_link_invariant_broken_by_split :
    (ringConstruction false
        (prepareSegments [0]
          [[⟨1, ⟨0, 0⟩⟩, ⟨2, ⟨10, 0⟩⟩, ⟨3, ⟨5, 5⟩⟩, ⟨4, ⟨11, 0⟩⟩, ⟨5, ⟨10, 0⟩⟩]])).rings =
      [(0, ⟨[⟨1, ⟨0, 0⟩⟩, ⟨2, ⟨10, 0⟩⟩], []⟩),
        (1, ⟨[⟨2, ⟨10, 0⟩⟩, ⟨3, ⟨5, 5⟩⟩, ⟨4, ⟨11, 0⟩⟩, ⟨5, ⟨10, 0⟩⟩], []⟩)] ∧
      ((ringConstruction false
        (prepareSegments [0]
          [[⟨1, ⟨0, 0⟩⟩, ⟨2, ⟨10, 0⟩⟩, ⟨3, ⟨5, 5⟩⟩, ⟨4, ⟨11, 0⟩⟩, ⟨5, ⟨10, 0⟩⟩]])).segs.getD
          3 default).ring = some 0 ∧
      ringLinkInvB
        (ringConstruction false
          (prepareSegments [0]
            [[⟨1, ⟨0, 0⟩⟩, ⟨2, ⟨10, 0⟩⟩, ⟨3, ⟨5, 5⟩⟩, ⟨4, ⟨11, 0⟩⟩, ⟨5, ⟨10, 0⟩⟩]])).segs
        (ringConstruction false
          (prepareSegments [0]
            [[⟨1, ⟨0, 0⟩⟩, ⟨2, ⟨10, 0⟩⟩, ⟨3, ⟨5, 5⟩⟩, ⟨4, ⟨11, 0⟩⟩, ⟨5, ⟨10, 0⟩⟩]])).rings =
        false := by
  decide

theorem has_closed_subring_end_state (d1 d2 : Bool) (rings : RingList) (nid rid : Nat)
    (nr : NodeRef) :
    (has_closed_subring_end d1 rings nid rid nr).2 =
      (has_closed_subring_end d2 rings nid rid nr).2 := by
  unfold has_closed_subring_end
  split
  · rfl
  · split
    · rfl
    · split <;> rfl

theorem has_closed_subring_start_state (d1 d2 : Bool) (rings : RingList) (nid rid : Nat)
    (nr : NodeRef) :
    (has_closed_subring_start d1 rings nid rid nr).2 =
      (has_closed_subring_start d2 rings nid rid nr).2 := by
  unfold has_closed_subring_start
  split
  · rfl
  · split
    · rfl
    · split <;> rfl

theorem combine_rings_debug (d1 d2 : Bool) (st : BuildState) (i : Nat) (nr : NodeRef)
    (rid : Nat) (at_end : Bool) :
    combine_rings d1 st i nr rid at_end = combine_rings d2 st i nr rid at_end := by
  unfold combine_rings
  cases at_end
  · simp only [Bool.false_eq_true, if_false]
    rw [has_closed_subring_start_state d1 d2]
  · simp only [if_true]
    rw [has_closed_subring_end_state d1 d2]

theorem stepSegment_debug (d1 d2 : Bool) (st : BuildState) (i : Nat) :
    stepSegment d1 st i = stepSegment d2 st i := by
  unfold stepSegment
  dsimp only
  split
  · exact combine_rings_debug d1 d2 st i _ _ _
  · rfl

theorem foldl_stepSegment_debug (d1 d2 : Bool) (l : List Nat) :
    ∀ st : BuildState, l.foldl (stepSegment d1) st = l.foldl (stepSegment d2) st := by
  induction l with
  | nil => intro st; rfl
  | cons i rest ih =>
    intro st
    simp only [List.foldl_cons]
    rw [stepSegment_debug d1 d2 st i]
    exact ih (stepSegment d2 st i)

theorem ringConstruction_debug (d1 d2 : Bool) (segs : List NodeRefSegment) :
    ringConstruction d1 segs = ringConstruction d2 segs := by
  unfold ringConstruction
  exact foldl_stepSegment_debug d1 d2 (List.range segs.length) ⟨segs, [], 0⟩

/-- Claim C3: the debug flag never affects the assembler's behavior or results; for
every relation, member list, input buffer and problem-collection setting, assemble
with debug on and with debug off produces identical out-buffer contents and an
identical problems list.  The only control-flow use of the flag, the return value of
`has_closed_subring_end` and `has_closed_subring_start` on the ring-closure path, is
discarded by `combine_rings`. -/
theorem assemble_debug_independent (d1 d2 remember : Bool) (rel : Relation)
    (members : List Nat) (in_buffer : List Way) :
    assemble d1 remember rel members in_buffer =
      assemble d2 remember rel members in_buffer := by
  unfold assemble
  dsimp only
  rw [ringConstruction_debug d1 d2]

theorem innerScan_problems_type (remember : Bool) (s1 : NodeRefSegment) :
    ∀ tl, ∀ p ∈ (innerScan remember s1 tl).2, p.ptype = ProblemType.intersection := by
  intro tl
  induction tl with
  | nil => intro p hp; simp [innerScan] at hp
  | cons h0 rest ih =>
    intro p hp
    simp only [innerScan] at hp
    by_cases he : segEqB s1 h0 = true
    · rw [if_pos he] at hp
      exact ih p hp
    · rw [if_neg he] at hp
      by_cases ho : outside_x_range h0 s1 = true
      · rw [if_pos ho] at hp
        simp at hp
      · rw [if_neg ho] at hp
        cases hcalc : (if y_range_overlap s1 h0 then calculate_intersection s1 h0 else none) with
        | some loc =>
          rw [hcalc] at hp
          dsimp only at hp
          rcases List.mem_append.mp hp with hp1 | hp1
          · by_cases hr : remember = true
            · rw [if_pos hr] at hp1
              rcases List.mem_singleton.mp hp1 with rfl
              rfl
            · rw [if_neg hr] at hp1
              cases hp1
          · exact ih p hp1
        | none =>
          rw [hcalc] at hp
          exact ih p hp

theorem find_intersections_problems_type (remember : Bool) :
    ∀ segs, ∀ p ∈ (find_intersections remember segs).2,
      p.ptype = ProblemType.intersection := by
  intro segs
  induction segs with
  | nil => intro p hp; simp [find_intersections] at hp
  | cons s1 rest ih =>
    intro p hp
    simp only [find_intersections] at hp
    rcases List.mem_append.mp hp with hp1 | hp1
    · exact innerScan_problems_type remember s1 rest p hp1
    · exact ih p hp1

theorem check_for_open_rings_eq (remember : Bool) : ∀ rings : RingList,
    check_for_open_rings remember rings =
      (rings.any (fun p => !p.2.closed),
        if remember then
          (rings.filter (fun p => !p.2.closed)).flatMap (fun p =>
            [⟨ProblemType.ring_not_closed, p.2.first, none⟩,
              ⟨ProblemType.ring_not_closed, p.2.last, none⟩])
        else []) := by
  intro rings
  induction rings with
  | nil =>
    cases remember <;> rfl
  | cons pr rest ih =>
    obtain ⟨rid, r⟩ := pr
    simp only [check_for_open_rings, ih]
    cases hc : r.closed <;> cases remember <;>
      simp [hc, List.any_cons, List.filter_cons]

/-- Claim C5: whenever the intersection check finds a crossing or some ring is still
open after ring construction, assemble returns with the area header (attributes and
tags) as the only committed record — no ring records; and the ring_not_closed
problems recorded are exactly two per open ring (the ring's first and last NodeRef,
in ring-store order) when problem collection is enabled, none otherwise. -/
theorem invalid_area_emitted_empty (debug remember : Bool) (rel : Relation)
    (members : List Nat) (in_buffer : List Way)
    (h : (find_intersections remember (prepareSegments members in_buffer)).1 = true ∨
      (check_for_open_rings remember
        (ringConstruction debug (prepareSegments members in_buffer)).rings).1 = true) :
    (assemble debug remember rel members in_buffer).2 = [relHeader rel] ∧
      (assemble debug remember rel members in_buffer).1.filter
          (fun p => p.ptype == ProblemType.ring_not_closed) =
        (if (find_intersections remember (prepareSegments members in_buffer)).1 = true then
          ([] : List Problem)
        else if remember then
          ((ringConstruction debug (prepareSegments members in_buffer)).rings.filter
            (fun p => !p.2.closed)).flatMap (fun p =>
              [⟨ProblemType.ring_not_closed, p.2.first, none⟩,
                ⟨ProblemType.ring_not_closed, p.2.last, none⟩])
        else []) := by
  have hfiltInt : ∀ l : List Problem, (∀ p ∈ l, p.ptype = ProblemType.intersection) →
      l.filter (fun p => p.ptype == ProblemType.ring_not_closed) = [] := by
    intro l hl
    rw [List.filter_eq_nil_iff]
    intro p hp
    rw [hl p hp]
    simp
  unfold assemble
  dsimp only
  by_cases hfi : (find_intersections remember (prepareSegments members in_buffer)).1 = true
  · rw [if_pos hfi]
    refine ⟨rfl, ?_⟩
    rw [if_pos hfi]
    exact hfiltInt _ (find_intersections_problems_type remember _)
  · rw [if_neg hfi]
    have hco : (check_for_open_rings remember
        (ringConstruction debug (prepareSegments members in_buffer)).rings).1 = true :=
      h.resolve_left hfi
    rw [if_pos hco]
    refine ⟨rfl, ?_⟩
    rw [if_neg hfi]
    rw [List.filter_append, hfiltInt _ (find_intersections_problems_type remember _),
      List.nil_append]
    rw [check_for_open_rings_eq remember]
    cases remember with
    | false => simp
    | true =>
      dsimp only
      rw [List.filter_eq_self]
      intro p hp
      rcases List.mem_flatMap.mp hp with ⟨q, _, hq⟩
      rcases List.mem_cons.mp hq with rfl | hq2
      · rfl
      · rcases List.mem_singleton.mp hq2 with rfl
        rfl

/-- Witness for claim C5: an unclosed single way (spec scenario 6); assemble commits
only the header and records exactly the two ring_not_closed problems of the open
chain. -/
theorem invalid_area_emitted_empty_witness :
    (assemble false true ⟨7, 1, 2, 3, true, 4, "u", [("type", "multipolygon")]⟩ [0]
        [[⟨1, ⟨0, 0⟩⟩, ⟨2, ⟨10, 0⟩⟩, ⟨3, ⟨10, 10⟩⟩]]).2 =
      [relHeader ⟨7, 1, 2, 3, true, 4, "u", [("type", "multipolygon")]⟩] ∧
      (assemble false true ⟨7, 1, 2, 3, true, 4, "u", [("type", "multipolygon")]⟩ [0]
          [[⟨1, ⟨0, 0⟩⟩, ⟨2, ⟨10, 0⟩⟩, ⟨3, ⟨10, 10⟩⟩]]).1.filter
          (fun p => p.ptype == ProblemType.ring_not_closed) =
        (if (find_intersections true
            (prepareSegments [0] [[⟨1, ⟨0, 0⟩⟩, ⟨2, ⟨10, 0⟩⟩, ⟨3, ⟨10, 10⟩⟩]])).1 = true then
          ([] : List Problem)
        else if true then
          ((ringConstruction false
            (prepareSegments [0] [[⟨1, ⟨0, 0⟩⟩, ⟨2, ⟨10, 0⟩⟩, ⟨3, ⟨10, 10⟩⟩]])).rings.filter
            (fun p => !p.2.closed)).flatMap (fun p =>
              [⟨ProblemType.ring_not_closed, p.2.first, none⟩,
                ⟨ProblemType.ring_not_closed, p.2.last, none⟩])
        else []) :=
  invalid_area_emitted_empty false true ⟨7, 1, 2, 3, true, 4, "u", [("type", "multipolygon")]⟩
    [0] [[⟨1, ⟨0, 0⟩⟩, ⟨2, ⟨10, 0⟩⟩, ⟨3, ⟨10, 10⟩⟩]] (Or.inr (by decide))

theorem ulpExp_eq_zero {m : Nat} (h : m < 2 ^ 53) : ulpExp m = 0 := by
  unfold ulpExp
  cases m with
  | zero => rfl
  | succ k =>
    show (if k + 1 < 2 ^ 53 then 0 else ulpExpGo k ((k + 1) / 2) + 1) = 0
    rw [if_pos h]

theorem roundNearestEven_zero_exp (m : Nat) : roundNearestEven m 0 = m := by
  simp [roundNearestEven, Nat.mod_one, Nat.div_one]

theorem roundDouble_eq_self {n : Int} (h : n.natAbs < 2 ^ 53) : roundDouble n = n := by
  unfold roundDouble
  rw [ulpExp_eq_zero h, roundNearestEven_zero_exp]
  by_cases hn : n < 0
  · rw [if_pos hn]
    omega
  · rw [if_neg hn]
    omega

theorem is_below_eq_exact {s : NodeRefSegment} {loc : Location}
    (h : crossTermsSmall s loc = true) : is_below loc s = is_below_exact loc s := by
  simp only [crossTermsSmall, Bool.and_eq_true, decide_eq_true_eq] at h
  obtain ⟨⟨⟨⟨⟨⟨h1, h2⟩, h3⟩, h4⟩, h5⟩, h6⟩, h7⟩ := h
  simp only [is_below, is_below_exact]
  rw [roundDouble_eq_self h1, roundDouble_eq_self h2, roundDouble_eq_self h3,
    roundDouble_eq_self h4, roundDouble_eq_self h5, roundDouble_eq_self h6,
    roundDouble_eq_self h7]

theorem windingCandidate_eq_exact {s : NodeRefSegment} {loc : Location}
    (h : crossTermsSmall s loc = true) :
    windingCandidate s loc = windingCandidateExact s loc := by
  simp only [windingCandidate, windingCandidateExact, is_below_eq_exact h]

theorem windingScanAux_find (loc : Location) : ∀ l : List (Nat × NodeRefSegment),
    (∀ p ∈ l, windingCandidate p.2 loc = windingCandidateExact p.2 loc) →
    windingScanAux loc l =
      match l.find? (fun p => windingCandidateExact p.2 loc) with
      | some p => (!p.2.cw, some p.1)
      | none => (true, none) := by
  intro l
  induction l with
  | nil => intro _; rfl
  | cons p rest ih =>
    intro hmem
    obtain ⟨i, s⟩ := p
    have hps := hmem (i, s) (List.mem_cons_self _ _)
    simp only [windingScanAux, List.find?]
    dsimp only at hps ⊢
    rw [hps]
    cases h : windingCandidateExact s loc
    · simp only [Bool.false_eq_true, if_false]
      exact ih (fun q hq => hmem q (List.mem_cons_of_mem _ hq))
    · simp only [if_true]

/-- Claim C6: the winding flag of a ring seed is computed by walking the previously
processed segments backwards; the first candidate whose y-interval contains the
seed's canonical-first y and that either lies with both endpoint x strictly left of
the seed point or passes the below-or-on signed-cross-product test yields cw = not
candidate.cw and is recorded as the seed's left_segment; with no qualifying
candidate (in particular for the very first segment) cw defaults to true and no
left segment is recorded.  The cross-product test is read exactly, so the statement
carries the per-candidate bound `crossTermsSmall`, under which the source's double
evaluation of `is_below` incurs no rounding and coincides with the exact test. -/
theorem winding_first_match (prev : List NodeRefSegment) (loc : Location)
    (hbound : ∀ s ∈ prev, crossTermsSmall s loc = true) :
    windingScan prev loc =
      match (prev.enum.reverse).find? (fun p => windingCandidateExact p.2 loc) with
      | some p => (!p.2.cw, some p.1)
      | none => (true, none) := by
  unfold windingScan
  have hmem : ∀ p ∈ prev.enum.reverse,
      windingCandidate p.2 loc = windingCandidateExact p.2 loc := by
    intro p hp
    refine windingCandidate_eq_exact (hbound p.2 ?_)
    have hp2 : p ∈ prev.enum := List.mem_reverse.mp hp
    have hmap := List.enum_map_snd prev
    rw [← hmap]
    exact List.mem_map_of_mem Prod.snd hp2
  exact windingScanAux_find loc prev.enum.reverse hmem

/-- Witness for claim C6 at a concrete seed: one previously processed segment whose
coordinate differences and cross products are tiny, so the no-rounding bound holds
by computation. -/
theorem winding_first_match_witness :
    windingScan [⟨⟨1, ⟨0, 0⟩⟩, ⟨2, ⟨10, 0⟩⟩, none, true, none⟩] ⟨5, 5⟩ =
      match (([(⟨⟨1, ⟨0, 0⟩⟩, ⟨2, ⟨10, 0⟩⟩, none, true, none⟩ : NodeRefSegment)]).enum.reverse).find?
          (fun p => windingCandidateExact p.2 ⟨5, 5⟩) with
      | some p => (!p.2.cw, some p.1)
      | none => (true, none) :=
  winding_first_match [⟨⟨1, ⟨0, 0⟩⟩, ⟨2, ⟨10, 0⟩⟩, none, true, none⟩] ⟨5, 5⟩ (by decide)

/-- Claim C9: of the configuration surface, `remember_problems` (with any value,
in particular false) and `enable_debug_output` leave the accumulated problem list
unchanged, only `clear_problems` empties it, and problems recorded by an invocation
while collection was enabled remain visible through `problems()` after collection
is later disabled. -/
theorem config_frame_effects (a : Assembler) (b : Bool) (rel : Relation)
    (members : List Nat) (in_buffer : List Way) :
    problems (remember_problems a false) = problems a ∧
      problems (enable_debug_output a b) = problems a ∧
      problems (clear_problems a) = [] ∧
      problems (remember_problems
          (enable_debug_output
            (runAssembler (remember_problems a true) rel members in_buffer).1 b) false) =
        problems (runAssembler (remember_problems a true) rel members in_buffer).1 :=
  ⟨rfl, rfl, rfl, rfl⟩

/-- Embedding of `MmapFile`: the mmap-backed array reduced to its abstract state,
the element count `m_size` and the slot contents; uint64 arithmetic on sizes is
taken mod 2^64.  The fd, ftruncate and mmap calls only move bytes between the file
and the mapping and are not modelled. -/
structure MmapFile (V : Type) where
  m_size : Nat
  m_items : Nat → V

/-- `MmapFile::size_increment` = 10 * 1024 * 1024 (source line 82). -/
def size_increment : Nat := 10 * 1024 * 1024

/-- Construction (source lines 92-128): one slot, zero-filled backing file. -/
def MmapFile.init (V : Type) (zero : V) : MmapFile V := ⟨1, fun _ => zero⟩

/-- Embedding of `MmapFile::set` (source lines 134-155): when id is at or beyond the
current size, remap with new_size = id + size_increment in uint64 arithmetic, then
store the value at id. -/
def MmapFile.set {V : Type} (f : MmapFile V) (id : Nat) (value : V) : MmapFile V :=
  let f1 : MmapFile V :=
    if id ≥ f.m_size then ⟨(id + size_increment) % 2 ^ 64, f.m_items⟩ else f
  ⟨f1.m_size, fun i => if i = id then value else f1.m_items i⟩

/-- Embedding of `MmapFile::operator[]` (source lines 157-159). -/
def MmapFile.get {V : Type} (f : MmapFile V) (id : Nat) : V := f.m_items id

/-- Embedding of `MmapFile::size` (source lines 161-163). -/
def MmapFile.size {V : Type} (f : MmapFile V) : Nat := f.m_size

/-- Counterexample to claim C10 as stated: at id = 2^64 - 1 the uint64 sum
id + 10*1024*1024 wraps, so the size after `set` is 10485759 rather than the claimed
id + 10*1024*1024 slots. -/
theorem mmap_growth_wraps :
    ((MmapFile.init Int 0).set (2 ^ 64 - 1) 5).size = 10485759 ∧
      ((MmapFile.init Int 0).set (2 ^ 64 - 1) 5).size ≠ (2 ^ 64 - 1) + 10 * 1024 * 1024 := by
  constructor
  · decide
  · decide

/-- Claim C10 (amended): size() is 1 on construction; set(id, value) leaves size()
unchanged when id < size() and sets it to (id + 10*1024*1024) mod 2^64 slots when
id >= size(), which equals id + 10*1024*1024 and cannot shrink the mapping provided
that sum does not exceed the uint64 range; under the precondition id < size(),
operator[](id) after set(id, value) returns value. -/
theorem mmap_set_semantics (V : Type) (zero : V) (f : MmapFile V) (id : Nat) (v : V) :
    (MmapFile.init V zero).size = 1 ∧
      (id < f.size → (f.set id v).size = f.size) ∧
      (f.size ≤ id → (f.set id v).size = (id + size_increment) % 2 ^ 64) ∧
      (id + size_increment < 2 ^ 64 → f.size ≤ (f.set id v).size) ∧
      (id < f.size → (f.set id v).get id = v) := by
  refine ⟨rfl, ?_, ?_, ?_, ?_⟩
  · intro hlt
    simp only [MmapFile.size] at hlt
    simp [MmapFile.set, MmapFile.size, Nat.not_le.mpr hlt]
  · intro hge
    simp only [MmapFile.size] at hge
    simp [MmapFile.set, MmapFile.size, hge]
  · intro hnowrap
    by_cases hge : f.m_size ≤ id
    · have hmod : (id + size_increment) % 2 ^ 64 = id + size_increment :=
        Nat.mod_eq_of_lt hnowrap
      simp only [MmapFile.set, MmapFile.size, hge, if_pos, hmod]
      omega
    · simp [MmapFile.set, MmapFile.size, hge]
  · intro hlt
    simp only [MmapFile.size] at hlt
    simp [MmapFile.set, MmapFile.get, Nat.not_le.mpr hlt]

/-- Witness for claim C10's amended statement at concrete inputs: id = 0 below the
size, id = 5 beyond it. -/
theorem mmap_set_semantics_witness :
    (MmapFile.init Int 0).size = 1 ∧
      ((MmapFile.init Int 0).set 0 7).size = (MmapFile.init Int 0).size ∧
      ((MmapFile.init Int 0).set 5 7).size = (5 + size_increment) % 2 ^ 64 ∧
      (MmapFile.init Int 0).size ≤ ((MmapFile.init Int 0).set 0 7).size ∧
      ((MmapFile.init Int 0).set 0 7).get 0 = 7 := by
  obtain ⟨h1, h2, -, h4, h5⟩ := mmap_set_semantics Int 0 (MmapFile.init Int 0) 0 7
  obtain ⟨-, -, h3, -, -⟩ := mmap_set_semantics Int 0 (MmapFile.init Int 0) 5 7
  exact ⟨h1, h2 (by decide), h3 (by decide), h4 (by decide), h5 (by decide)⟩

/-- Witness for claim C7: three coincident copies of one segment plus a single other
segment, sorted; dedup leaves one copy of the odd group and the single copy. -/
theorem dedup_odd_even_witness :
    (find_and_erase_duplicate_segments
        [⟨⟨1, ⟨0, 0⟩⟩, ⟨2, ⟨1, 0⟩⟩, none, false, none⟩,
          ⟨⟨1, ⟨0, 0⟩⟩, ⟨2, ⟨1, 0⟩⟩, none, false, none⟩,
          ⟨⟨1, ⟨0, 0⟩⟩, ⟨2, ⟨1, 0⟩⟩, none, false, none⟩,
          ⟨⟨3, ⟨1, 0⟩⟩, ⟨4, ⟨2, 0⟩⟩, none, false, none⟩]).countP
        (fun s => segEqB ⟨⟨1, ⟨0, 0⟩⟩, ⟨2, ⟨1, 0⟩⟩, none, false, none⟩ s) =
      ([⟨⟨1, ⟨0, 0⟩⟩, ⟨2, ⟨1, 0⟩⟩, none, false, none⟩,
          ⟨⟨1, ⟨0, 0⟩⟩, ⟨2, ⟨1, 0⟩⟩, none, false, none⟩,
          ⟨⟨1, ⟨0, 0⟩⟩, ⟨2, ⟨1, 0⟩⟩, none, false, none⟩,
          (⟨⟨3, ⟨1, 0⟩⟩, ⟨4, ⟨2, 0⟩⟩, none, false, none⟩ : NodeRefSegment)].countP
        (fun s => segEqB ⟨⟨1, ⟨0, 0⟩⟩, ⟨2, ⟨1, 0⟩⟩, none, false, none⟩ s)) % 2 ∧
      (find_and_erase_duplicate_segments
        [⟨⟨1, ⟨0, 0⟩⟩, ⟨2, ⟨1, 0⟩⟩, none, false, none⟩,
          ⟨⟨1, ⟨0, 0⟩⟩, ⟨2, ⟨1, 0⟩⟩, none, false, none⟩,
          ⟨⟨1, ⟨0, 0⟩⟩, ⟨2, ⟨1, 0⟩⟩, none, false, none⟩,
          ⟨⟨3, ⟨1, 0⟩⟩, ⟨4, ⟨2, 0⟩⟩, none, false, none⟩]).Pairwise
        (fun a b => segEqB a b = false) :=
  ⟨(dedup_odd_even
      [⟨⟨1, ⟨0, 0⟩⟩, ⟨2, ⟨1, 0⟩⟩, none, false, none⟩,
        ⟨⟨1, ⟨0, 0⟩⟩, ⟨2, ⟨1, 0⟩⟩, none, false, none⟩,
        ⟨⟨1, ⟨0, 0⟩⟩, ⟨2, ⟨1, 0⟩⟩, none, false, none⟩,
        ⟨⟨3, ⟨1, 0⟩⟩, ⟨4, ⟨2, 0⟩⟩, none, false, none⟩] (by decide)).1
      ⟨⟨1, ⟨0, 0⟩⟩, ⟨2, ⟨1, 0⟩⟩, none, false, none⟩,
    (dedup_odd_even
      [⟨⟨1, ⟨0, 0⟩⟩, ⟨2, ⟨1, 0⟩⟩, none, false, none⟩,
        ⟨⟨1, ⟨0, 0⟩⟩, ⟨2, ⟨1, 0⟩⟩, none, false, none⟩,
        ⟨⟨1, ⟨0, 0⟩⟩, ⟨2, ⟨1, 0⟩⟩, none, false, none⟩,
        ⟨⟨3, ⟨1, 0⟩⟩, ⟨4, ⟨2, 0⟩⟩, none, false, none⟩] (by decide)).2⟩
